import Mathlib

set_option maxHeartbeats 1000000

/-!
Verification development for the archive-extraction toolkit
(`github/github.go`, `github/env.go`).

Archive entry paths and file contents are modelled as `List Char` and
`List Nat` (byte values).  Fallible operations return `Option`; the pair
`Option FileMap × Bool` mirrors Go's `(map[string]RepositoryFile, error)`
return value, the `Bool` recording whether the returned `error` is non-nil.
-/

/-! ## Model of `strings.SplitN` (separator is a single character) -/

/-- Helper for `strings.SplitN`: locate the first occurrence of the separator
character, returning the characters strictly before it and strictly after it,
or `none` when the separator does not occur. -/
def breakAtSep (sep : Char) : List Char → Option (List Char × List Char)
  | [] => none
  | c :: cs =>
    if c = sep then some ([], cs)
    else
      match breakAtSep sep cs with
      | none => none
      | some pq => some (c :: pq.1, pq.2)

/-- Go `strings.SplitN(s, string(sep), n)` for a one-character separator:
`n = 0` yields the empty list (Go returns nil), `n = 1` yields `[s]`
unsplit, and for larger `n` the string is split at the first separator and
the remainder is split with budget `n - 1`; the last element holds the
unsplit rest. -/
def goSplitN (sep : Char) : List Char → Nat → List (List Char)
  | _, 0 => []
  | s, 1 => [s]
  | s, Nat.succ (Nat.succ m) =>
    match breakAtSep sep s with
    | none => [s]
    | some pq => pq.1 :: goSplitN sep pq.2 (Nat.succ m)

/-- Number of occurrences of the separator character; a path with
`countSep sep s` separators has `countSep sep s + 1` separator-delimited
segments. -/
def countSep (sep : Char) : List Char → Nat
  | [] => 0
  | c :: cs => (if c = sep then 1 else 0) + countSep sep cs

/-- Stated from the spec: the remainder of a path after its first `d`
separator-delimited segments, kept exactly as stored (everything after the
`d`-th separator); `none` when the path has at most `d` segments.  Used to
compare the code's `SplitN`-based stripping against the spec's words. -/
def dropSegs (sep : Char) : Nat → List Char → Option (List Char)
  | 0, s => some s
  | Nat.succ d, s =>
    match breakAtSep sep s with
    | none => none
    | some pq => dropSegs sep d pq.2

/-- `os.PathSeparator` on the platforms this action targets. -/
def pathSeparator : Char := '/'

/-- Lines 125–133 of `github.go`: compute the effective name of a tar entry.
With `stripFolder > 0` the raw name is split into at most `stripFolder + 1`
pieces; when the split yields at most `stripFolder` pieces the entry is to be
skipped (`none`, the code logs a warning and continues), otherwise the piece
at index `stripFolder` (the unsplit remainder) becomes the name.  With
`stripFolder = 0` the raw name is used unchanged. -/
def resolveName (sep : Char) (stripFolder : Nat) (name : List Char) : Option (List Char) :=
  if 0 < stripFolder then
    if (goSplitN sep name (stripFolder + 1)).length ≤ stripFolder then none
    else some ((goSplitN sep name (stripFolder + 1)).getD stripFolder [])
  else some name

/-! ## Data model of archive entries -/

/-- `archive/tar` header formats (`tar.Format`), as far as the code
distinguishes them: the check in `github.go` compares against
`tar.FormatPAX`. -/
inductive TarFormat where
  | USTAR
  | PAX
  | GNU
  | Unknown
deriving DecidableEq

/-- The slice of `os.FileInfo` the code consults: `IsDir()`. -/
structure FileInfo where
  isDir : Bool
deriving DecidableEq

/-- `tar.TypeXHeader`: a PAX extended-attributes record. -/
def TypeXHeader : Char := 'x'

/-- `tar.TypeXGlobalHeader`: a PAX global extended-attributes record (the
`pax_global_header` entry of `git archive` tarballs); Go's `tar.Reader`
surfaces these as ordinary headers with `Format = FormatPAX`. -/
def TypeXGlobalHeader : Char := 'g'

/-- A `tar.Header` as surfaced by `tar.Reader.Next`: name, the best-effort
`Format` guess, the `FileInfo()` view, and the type flag.  Note that Go sets
`Format = FormatPAX` both on metadata-only records (type flag `g`) and on
regular files whose headers carried PAX extended records. -/
structure TarHeader where
  Name : List Char
  Format : TarFormat
  FileInfo : FileInfo
  Typeflag : Char
deriving DecidableEq

/-- An entry is a metadata-only (extended-attributes) record when its type
flag is `x` or `g`; such records carry no real file content. -/
def TarHeader.metadataOnly (h : TarHeader) : Bool :=
  h.Typeflag == TypeXHeader || h.Typeflag == TypeXGlobalHeader

/-- One tar entry: its header together with the outcome of `io.Copy` over its
body (`none` models a read error). -/
structure TarEntry where
  header : TarHeader
  content : Option (List Nat)
deriving DecidableEq

/-- One step of the tar stream as delivered by `tar.Reader.Next`: either an
entry, or a non-EOF header-parse error (`headerErr`). -/
inductive TarItem where
  | entry (e : TarEntry)
  | headerErr
deriving DecidableEq

/-- One entry of a zip central directory (`zip.File`): stored name, the
`FileInfo()` view, and the outcome of `Open` followed by `ioutil.ReadAll`
(`none` models an error in either). -/
structure ZipFile where
  Name : List Char
  FileInfo : FileInfo
  content : Option (List Nat)
deriving DecidableEq

/-- `RepositoryFile` from `github.go`. -/
structure RepositoryFile where
  Path : List Char
  FileInfo : FileInfo
  Data : List Nat
deriving DecidableEq

/-- `type Matcher func(path string) bool`. -/
abbrev Matcher := List Char → Bool

/-- `MatchAll` from `github.go`: matches any name. -/
def MatchAll : Matcher := fun _ => true

/-- The result mapping, modelled as an association list with unique keys;
`mapInsert` realises Go's `files[name] = ...` assignment. -/
abbrev FileMap := List (List Char × RepositoryFile)

/-- Go map assignment `m[k] = v`: the new binding replaces any previous
binding of the same key. -/
def mapInsert (k : List Char) (v : RepositoryFile) (m : FileMap) : FileMap :=
  (k, v) :: m.filter (fun kv => kv.1 != k)

/-! ## The extractor (`readTarResponse`) -/

/-- The body of one iteration of the tar loop (lines 115–146 of `github.go`):
skip PAX-format and directory entries, resolve the name (skipping entries
below the strip level), apply the matcher, and on a match read the content
(`none` propagates the `io.Copy` error) and assign into the map. -/
def tarStep (stripFolder : Nat) (inc : Matcher) (e : TarEntry) (files : FileMap) :
    Option FileMap :=
  if e.header.Format = TarFormat.PAX ∨ e.header.FileInfo.isDir = true then some files
  else
    match resolveName pathSeparator stripFolder e.header.Name with
    | none => some files
    | some name =>
      if inc name then
        match e.content with
        | none => none
        | some b => some (mapInsert name (RepositoryFile.mk name e.header.FileInfo b) files)
      else some files

/-- The tar loop of `readTarResponse`: iterate `tr.Next()` results until EOF
(the end of the list), aborting with `(nil, err)` on a header error or on a
failed content read, and returning the accumulated map at EOF. -/
def readTarEntries (stripFolder : Nat) (inc : Matcher) :
    List TarItem → FileMap → Option FileMap × Bool
  | [], files => (some files, false)
  | TarItem.headerErr :: _, _ => (none, true)
  | TarItem.entry e :: rest, files =>
    match tarStep stripFolder inc e files with
    | none => (none, true)
    | some files2 => readTarEntries stripFolder inc rest files2

/-- The body of one iteration of the zip loop (lines 90–109 of `github.go`):
skip directories, apply the matcher to the stored name, and on a match read
the content (`none` propagates the `Open`/`ReadAll` error) and assign into
the map under the stored name, as-is. -/
def zipStep (inc : Matcher) (f : ZipFile) (files : FileMap) : Option FileMap :=
  if f.FileInfo.isDir = false then
    if inc f.Name then
      match f.content with
      | none => none
      | some b => some (mapInsert f.Name (RepositoryFile.mk f.Name f.FileInfo b) files)
    else some files
  else some files

/-- The zip loop of `readTarResponse`: iterate the central-directory entries
in stored order, aborting with `(nil, err)` when an entry's content cannot be
read. -/
def readZipEntries (inc : Matcher) : List ZipFile → FileMap → Option FileMap × Bool
  | [], files => (some files, false)
  | f :: rest, files =>
    match zipStep inc f files with
    | none => (none, true)
    | some files2 => readZipEntries inc rest files2

/-- The HTTP response as `readTarResponse` consumes it.  Instead of raw
bytes, the body carries the outcome of each decoder the code may apply to
it: `gzipTar` is the result of `gzip.NewReader` followed by tar reading
(`none`: invalid gzip header), `zipCopy` records whether buffering the body
with `io.Copy` succeeds, `zipEntries` is the result of `zip.NewReader` over
the buffer (`none`: invalid central directory), and `rawTar` is the tar
stream obtained by parsing the body directly. -/
structure Response where
  contentType : String
  gzipTar : Option (List TarItem)
  zipCopy : Bool
  zipEntries : Option (List ZipFile)
  rawTar : List TarItem

/-- `readTarResponse` (lines 68–149 of `github.go`): dispatch on the declared
`Content-Type`.  The gzip content types wrap the body in a gzip reader
(failure aborts) and fall through to the tar loop; `application/zip` buffers
the body, opens a zip reader over it and runs the zip loop, each failure
aborting with `(nil, err)`; any other content type is parsed directly as
tar. -/
def readTarResponse (resp : Response) (stripFolder : Nat) (inc : Matcher) :
    Option FileMap × Bool :=
  if resp.contentType = "application/gzip" ∨ resp.contentType = "application/x-gzip" then
    match resp.gzipTar with
    | none => (none, true)
    | some items => readTarEntries stripFolder inc items []
  else if resp.contentType = "application/zip" then
    if resp.zipCopy then
      match resp.zipEntries with
      | none => (none, true)
      | some fs => readZipEntries inc fs []
    else (none, true)
  else readTarEntries stripFolder inc resp.rawTar []

/-! ## `MatchesOneOf` and the regexp model -/

/-- Does the first list occur as a leading segment of the second? -/
def leadsWith : List Char → List Char → Bool
  | [], _ => true
  | _ :: _, [] => false
  | p :: ps, c :: cs => p == c && leadsWith ps cs

/-- Does the first list occur contiguously anywhere inside the second?
Unanchored containment, as in Go's `(*Regexp).MatchString`, which reports
whether the string contains any match of the expression. -/
def containsSub (p : List Char) : List Char → Bool
  | [] => p.isEmpty
  | c :: cs => leadsWith p (c :: cs) || containsSub p cs

/-- POSIX ERE metacharacters. -/
def regexMeta : List Char :=
  ['\\', '^', '$', '.', '[', ']', '(', ')', '*', '+', '?', '\x7b', '\x7d', '|']

/-- A pattern consisting only of literal characters (no ERE metacharacter). -/
def isLiteralPattern (p : List Char) : Bool :=
  p.all (fun c => !(regexMeta.contains c))

/-- Partial model of `regexp.CompilePOSIX` together with
`(*Regexp).MatchString`, restricted to the fragment the theorems use: a
literal pattern (no metacharacters) always compiles, and its `MatchString` is
unanchored substring containment; every pattern outside the literal fragment
is mapped to a compile failure (`none`).  That mapping is exact for patterns
that are invalid POSIX syntax — in particular for `"("`, which
`regexp.CompilePOSIX` rejects with `missing closing )` — and the theorems
below apply this model only to literal patterns and to `"("`. -/
def goCompilePOSIX (p : String) : Option (String → Bool) :=
  if isLiteralPattern p.toList then some (fun s => containsSub p.toList s.toList)
  else none

/-- `MatchesOneOf` (lines 188–201 of `github.go`), parametric in the model
`compile` of `regexp.CompilePOSIX`.  The returned matcher walks the patterns
in order, recompiling each on every invocation.  When compilation fails the
code logs a warning but does not skip the pattern: `exp` is nil and the
subsequent `exp.MatchString(path)` dereferences a nil pointer and panics —
the panic is modelled as `none`.  When compilation succeeds and the pattern
matches, the matcher returns true without looking at later patterns;
otherwise it continues, returning false after the last pattern. -/
def MatchesOneOf (compile : String → Option (String → Bool))
    (patterns : List String) (path : String) : Option Bool :=
  match patterns with
  | [] => some false
  | p :: ps =>
    match compile p with
    | none => none
    | some exp => if exp path then some true else MatchesOneOf compile ps path

/-- Stated from the claim: the disjunction of the individual pattern matches
(a pattern that fails to compile contributes false). -/
def anyCompiledMatches (compile : String → Option (String → Bool))
    (patterns : List String) (path : String) : Bool :=
  patterns.any (fun p =>
    match compile p with
    | some m => m path
    | none => false)

/-- Stated from the claim: a matcher in which each pattern's match is
anchored to the whole path.  For a literal pattern, a whole-path-anchored
match succeeds exactly when the path equals the pattern. -/
def anchoredOneOf (patterns : List String) (path : String) : Bool :=
  patterns.any (fun p => p == path)

/-! ## Environment helpers (`env.go`) -/

/-- The process environment.  `os.Getenv` returns the empty string for an
unset variable, so an unset variable and a variable set to the empty string
are indistinguishable here, exactly as in the code. -/
abbrev Env := String → String

/-- `githubEnv` from `env.go`: read `GITHUB_<name>`. -/
def githubEnv (env : Env) (name : String) : String :=
  env ("GITHUB_" ++ name)

/-- The largest value of Go's `uint64`. -/
def maxUint64 : Nat := 2 ^ 64 - 1

/-- The overflow cutoff `maxVal/base + 1` used by `strconv.ParseUint` for
base 10 and bit size 64. -/
def uintCutoff : Nat := maxUint64 / 10 + 1

/-- The digit-accumulation loop of `strconv.ParseUint(s, 10, 64)`.  A
non-digit character is a syntax error.  Go guards overflow with two checks:
`n >= cutoff` before multiplying, and after computing `n1 = n*base + d` in
`uint64` arithmetic, `n1 < n || n1 > maxVal`.  Here `n1` is computed in `Nat`,
where the wrap-around case `n1 < n` coincides with `n1 > maxVal` (a wrapped
`uint64` sum exceeds `2^64 - 1` as a natural number), so a single comparison
against `maxUint64` captures both checks.  Any error returns `none`. -/
def parseUintLoop : List Char → Nat → Option Nat
  | [], n => some n
  | c :: cs, n =>
    if c.isDigit then
      if uintCutoff ≤ n then none
      else if maxUint64 < n * 10 + (c.toNat - '0'.toNat) then none
      else parseUintLoop cs (n * 10 + (c.toNat - '0'.toNat))
    else none

/-- `strconv.ParseUint(s, 10, 64)`: the empty string is a syntax error;
otherwise run the digit loop from 0.  Only success or failure is modelled,
since `githubEnvNumber` inspects nothing but the error. -/
def ParseUint (s : String) : Option Nat :=
  if s.toList = [] then none else parseUintLoop s.toList 0

/-- `githubEnvNumber` from `env.go`: parse the variable as an unsigned
decimal, silently mapping every parse error to 0.  The conversion
`uint(i)` is the identity on 64-bit platforms. -/
def githubEnvNumber (env : Env) (name : String) : Nat :=
  match ParseUint (githubEnv env name) with
  | none => 0
  | some i => i

/-- `RunID` from `env.go`. -/
def RunID (env : Env) : Nat := githubEnvNumber env "RUN_ID"

/-- `RunNumber` from `env.go`. -/
def RunNumber (env : Env) : Nat := githubEnvNumber env "RUN_NUMBER"

/-- Stated from the claim: the value of a decimal digit string, most
significant digit first, accumulated onto `n`. -/
def decimalValueFrom (n : Nat) : List Char → Nat
  | [] => n
  | c :: cs => decimalValueFrom (n * 10 + (c.toNat - '0'.toNat)) cs

/-- Stated from the claim: the value denoted by a decimal digit string. -/
def decimalValue (s : List Char) : Nat := decimalValueFrom 0 s

/-- Stated from the claim: the number `RunID`/`RunNumber` should return — the
parsed value when the variable is a nonempty string of decimal digits whose
value fits in an unsigned 64-bit integer, and 0 otherwise. -/
def specEnvNumber (s : List Char) : Nat :=
  if s ≠ [] ∧ s.all Char.isDigit = true ∧ decimalValue s ≤ maxUint64 then decimalValue s
  else 0



/-! ## Helper predicates used by the theorems -/

/-- Keep a tar item unless it is an entry classified as a directory. -/
def tarNotDir : TarItem → Bool
  | TarItem.entry e => !e.header.FileInfo.isDir
  | TarItem.headerErr => true

/-- Keep a zip entry unless it is classified as a directory. -/
def zipNotDir (f : ZipFile) : Bool := !f.FileInfo.isDir

/-- Keep a tar item unless it is an entry whose header format is PAX. -/
def tarNotPAXFormat : TarItem → Bool
  | TarItem.entry e => if e.header.Format = TarFormat.PAX then false else true
  | TarItem.headerErr => true

/-- The response with every directory-classified entry removed from each of
its decoded views. -/
def Response.filterDirs (resp : Response) : Response :=
  Response.mk resp.contentType (resp.gzipTar.map (List.filter tarNotDir)) resp.zipCopy
    (resp.zipEntries.map (List.filter zipNotDir)) (resp.rawTar.filter tarNotDir)

/-- The declared content types selecting the gzip branch of the dispatch. -/
def isGzipContentType (ct : String) : Prop :=
  ct = "application/gzip" ∨ ct = "application/x-gzip"

/-- A tar entry that writes key `k`: it survives the PAX-format and directory
skips, its name resolves to `k`, and the matcher accepts `k`. -/
def tarWritesKey (stripFolder : Nat) (inc : Matcher) (e : TarEntry) (k : List Char) : Prop :=
  ¬(e.header.Format = TarFormat.PAX) ∧ e.header.FileInfo.isDir = false ∧
    resolveName pathSeparator stripFolder e.header.Name = some k ∧ inc k = true

/-- A zip entry that writes key `k`: not a directory, accepted by the
matcher, stored under name `k`. -/
def zipWritesKey (inc : Matcher) (f : ZipFile) (k : List Char) : Prop :=
  f.FileInfo.isDir = false ∧ inc f.Name = true ∧ f.Name = k

/-- A tar stream on which the loop must fail: it contains a header-parse
error, or an entry that survives every skip and is accepted by the matcher
but whose content read fails. -/
def tarStreamFails (stripFolder : Nat) (inc : Matcher) (items : List TarItem) : Prop :=
  TarItem.headerErr ∈ items ∨
    ∃ e k, TarItem.entry e ∈ items ∧ tarWritesKey stripFolder inc e k ∧ e.content = none

/-- A zip central directory on which the loop must fail: some non-directory
entry is accepted by the matcher but its content read fails. -/
def zipStreamFails (inc : Matcher) (fs : List ZipFile) : Prop :=
  ∃ f, f ∈ fs ∧ f.FileInfo.isDir = false ∧ inc f.Name = true ∧ f.content = none

/-! ## Lemmas about the `SplitN` model -/

theorem breakAtSep_eq_none_iff (sep : Char) (s : List Char) :
    breakAtSep sep s = none ↔ countSep sep s = 0 := by
  induction s with
  | nil => simp [breakAtSep, countSep]
  | cons c cs ih =>
    by_cases h : c = sep
    · simp [breakAtSep, countSep, h]
    · cases hb : breakAtSep sep cs with
      | none =>
        have h0 : countSep sep cs = 0 := ih.mp hb
        simp [breakAtSep, countSep, h, hb, h0]
      | some pq =>
        have h1 : ¬ countSep sep cs = 0 := by
          intro h0
          rw [ih.mpr h0] at hb
          cases hb
        simp [breakAtSep, countSep, h, hb, h1]

theorem breakAtSep_countSep (sep : Char) : ∀ (s pre post : List Char),
    breakAtSep sep s = some (pre, post) → countSep sep s = countSep sep post + 1 := by
  intro s
  induction s with
  | nil => intro pre post h; simp [breakAtSep] at h
  | cons c cs ih =>
    intro pre post h
    by_cases hc : c = sep
    · simp [breakAtSep, hc] at h
      simp [countSep, hc, h.2]
      omega
    · cases hb : breakAtSep sep cs with
      | none => simp [breakAtSep, hc, hb] at h
      | some pq =>
        simp [breakAtSep, hc, hb] at h
        have hrec := ih pq.1 pq.2 (by rw [hb])
        simp [countSep, hc, ← h.2, hrec]

theorem goSplitN_length_of_countSep_lt (sep : Char) : ∀ (d : Nat) (s : List Char),
    countSep sep s < d → (goSplitN sep s (d + 1)).length = countSep sep s + 1 := by
  intro d
  induction d with
  | zero => intro s h; omega
  | succ d ih =>
    intro s h
    cases hb : breakAtSep sep s with
    | none =>
      have h0 := (breakAtSep_eq_none_iff sep s).mp hb
      simp [goSplitN, hb, h0]
    | some pq =>
      have hc := breakAtSep_countSep sep s pq.1 pq.2 (by rw [hb])
      have hlt : countSep sep pq.2 < d := by omega
      simp [goSplitN, hb, ih pq.2 hlt]
      omega

theorem goSplitN_getD_of_le (sep : Char) : ∀ (d : Nat) (s : List Char),
    d ≤ countSep sep s →
    (goSplitN sep s (d + 1)).length = d + 1 ∧
      ∃ r, dropSegs sep d s = some r ∧ (goSplitN sep s (d + 1)).getD d [] = r := by
  intro d
  induction d with
  | zero =>
    intro s _
    exact ⟨by simp [goSplitN], s, rfl, rfl⟩
  | succ d ih =>
    intro s h
    cases hb : breakAtSep sep s with
    | none =>
      have h0 := (breakAtSep_eq_none_iff sep s).mp hb
      omega
    | some pq =>
      have hc := breakAtSep_countSep sep s pq.1 pq.2 (by rw [hb])
      have hd : d ≤ countSep sep pq.2 := by omega
      obtain ⟨hlen, r, hr1, hr2⟩ := ih pq.2 hd
      refine ⟨?_, r, ?_, ?_⟩
      · simp [goSplitN, hb, hlen]
      · simp [dropSegs, hb, hr1]
      · rw [show goSplitN sep s (d + 1 + 1) = pq.1 :: goSplitN sep pq.2 (d + 1) from by
          simp [goSplitN, hb]]
        rw [List.getD_cons_succ]
        exact hr2

/-- Claim C2: for strip depth `d > 0` and a raw path with more than `d`
separator-delimited segments, the effective path is exactly the remainder of
the path after its first `d` segments, with no further rebasing; for
`d = 0` the effective path is the raw path unchanged. -/
theorem resolveName_strips_exact_remainder :
    (∀ (sep : Char) (d : Nat) (s : List Char), 0 < d → d < countSep sep s + 1 →
      ∃ r, dropSegs sep d s = some r ∧ resolveName sep d s = some r)
    ∧ (∀ (sep : Char) (s : List Char), resolveName sep 0 s = some s) := by
  constructor
  · intro sep d s hd hseg
    have hle : d ≤ countSep sep s := by omega
    obtain ⟨hlen, r, hr1, hr2⟩ := goSplitN_getD_of_le sep d s hle
    refine ⟨r, hr1, ?_⟩
    unfold resolveName
    rw [if_pos hd, hlen, if_neg (by omega : ¬ d + 1 ≤ d)]
    exact congrArg some hr2
  · intro sep s
    simp [resolveName]

/-- Witness for C2: at depth 1, the path `a/b` resolves to the remainder
`b`. -/
theorem resolveName_strips_exact_remainder_witness :
    ∃ r, dropSegs '/' 1 "a/b".toList = some r ∧ resolveName '/' 1 "a/b".toList = some r :=
  resolveName_strips_exact_remainder.1 '/' 1 "a/b".toList (by decide) (by decide)

/-- Claim C3: for strip depth `d > 0` and a raw path with at most `d`
separator-delimited segments, the entry is skipped: its name resolves to no
effective path, and the tar loop passes over it leaving the accumulated map
untouched, continuing with the next entry. -/
theorem resolveName_below_strip_level_skips :
    (∀ (sep : Char) (d : Nat) (s : List Char), 0 < d → countSep sep s + 1 ≤ d →
      resolveName sep d s = none)
    ∧ (∀ (d : Nat) (inc : Matcher) (e : TarEntry) (rest : List TarItem) (acc : FileMap),
        resolveName pathSeparator d e.header.Name = none →
        readTarEntries d inc (TarItem.entry e :: rest) acc = readTarEntries d inc rest acc) := by
  constructor
  · intro sep d s hd hseg
    have hlt : countSep sep s < d := by omega
    have hlen := goSplitN_length_of_countSep_lt sep d s hlt
    unfold resolveName
    rw [if_pos hd, hlen, if_pos (by omega)]
  · intro d inc e rest acc hres
    have hstep : tarStep d inc e acc = some acc := by
      unfold tarStep
      by_cases hf : e.header.Format = TarFormat.PAX ∨ e.header.FileInfo.isDir = true
      · rw [if_pos hf]
      · rw [if_neg hf, hres]
    simp [readTarEntries, hstep]

/-- Witness for C3: at depth 2 the single-segment path `ab` is skipped and
the loop proceeds unchanged. -/
theorem resolveName_below_strip_level_skips_witness :
    resolveName '/' 2 "ab".toList = none ∧
      readTarEntries 2 MatchAll
        [TarItem.entry (TarEntry.mk
          (TarHeader.mk "ab".toList TarFormat.USTAR (FileInfo.mk false) '0') (some [1]))] [] =
        readTarEntries 2 MatchAll [] [] :=
  ⟨resolveName_below_strip_level_skips.1 '/' 2 "ab".toList (by decide) (by decide),
   resolveName_below_strip_level_skips.2 2 MatchAll _ [] [] (by decide)⟩

/-! ## `MatchesOneOf` theorems -/

/-- Claim C1 is contradicted by the code: for the non-compiling pattern `"("`
the matcher does not warn-and-continue.  After the failed compile the code
only logs a warning — there is no `continue` — so `exp` is nil and the
subsequent `exp.MatchString(path)` dereferences a nil pointer and panics
(modelled as `none`).  The claimed result, the OR of the zero successfully
compiled patterns, would have been `false`. -/
theorem MatchesOneOf_invalid_pattern_aborts :
    MatchesOneOf goCompilePOSIX ["("] "x" = none ∧
      anyCompiledMatches goCompilePOSIX ["("] "x" = false := by
  constructor <;> rfl

/-- Claim C8 counterexample: the pattern `"b"` is not anchored to the whole
path — the built matcher accepts `"abc"`, which a whole-path-anchored match
of `"b"` would reject. -/
theorem MatchesOneOf_unanchored_counterexample :
    MatchesOneOf goCompilePOSIX ["b"] "abc" = some true ∧
      anchoredOneOf ["b"] "abc" = false := by
  constructor <;> rfl

/-- Claim C8 (amended): `MatchesOneOf` compiles each pattern as a POSIX
regular expression whose match is unanchored (a literal pattern matches
anywhere inside the path); provided every pattern examined compiles, the
matcher is true iff at least one pattern matches (logical OR, short-circuit
on the first match), and with an empty pattern list it matches nothing. -/
theorem MatchesOneOf_or_semantics :
    (∀ (compile : String → Option (String → Bool)) (path : String),
      MatchesOneOf compile [] path = some false)
    ∧ (∀ (compile : String → Option (String → Bool)) (patterns : List String) (path : String),
        (∀ p ∈ patterns, (compile p).isSome = true) →
        MatchesOneOf compile patterns path = some (anyCompiledMatches compile patterns path))
    ∧ (∀ (p path : String), isLiteralPattern p.toList = true →
        MatchesOneOf goCompilePOSIX [p] path = some (containsSub p.toList path.toList)) := by
  refine ⟨fun compile path => rfl, ?_, ?_⟩
  · intro compile patterns path h
    induction patterns with
    | nil => rfl
    | cons p ps ih =>
      have hp : (compile p).isSome = true := h p (by simp)
      cases hcp : compile p with
      | none => rw [hcp] at hp; simp at hp
      | some m =>
        by_cases hm : m path = true
        · simp [MatchesOneOf, anyCompiledMatches, hcp, hm]
        · have ih2 := ih (fun q hq => h q (List.mem_cons_of_mem _ hq))
          rw [show MatchesOneOf compile (p :: ps) path = MatchesOneOf compile ps path from by
            simp [MatchesOneOf, hcp, hm]]
          rw [ih2]
          congr 1
          simp [anyCompiledMatches, hcp, hm]
  · intro p path hl
    have hc : goCompilePOSIX p = some (fun s => containsSub p.toList s.toList) := by
      unfold goCompilePOSIX
      rw [if_pos hl]
    simp only [MatchesOneOf, hc]
    cases h2 : containsSub p.toList path.toList
    · simp [h2]
    · simp [h2]

/-- Witness for amended C8: with two compiling patterns of which the second
matches, the matcher computes the disjunction. -/
theorem MatchesOneOf_or_semantics_witness :
    MatchesOneOf goCompilePOSIX ["zz", "bc"] "abc" =
      some (anyCompiledMatches goCompilePOSIX ["zz", "bc"] "abc") :=
  MatchesOneOf_or_semantics.2.1 goCompilePOSIX ["zz", "bc"] "abc" (by decide)

/-! ## Lemmas about the extraction loops -/

theorem readTarEntries_shape (d : Nat) (inc : Matcher) :
    ∀ (items : List TarItem) (acc : FileMap),
    readTarEntries d inc items acc = (none, true) ∨
      ∃ m, readTarEntries d inc items acc = (some m, false) := by
  intro items
  induction items with
  | nil => intro acc; exact Or.inr ⟨acc, rfl⟩
  | cons it rest ih =>
    intro acc
    cases it with
    | headerErr => exact Or.inl rfl
    | entry e =>
      cases hs : tarStep d inc e acc with
      | none => exact Or.inl (by simp [readTarEntries, hs])
      | some acc2 =>
        rcases ih acc2 with h | ⟨m, hm⟩
        · exact Or.inl (by simp [readTarEntries, hs, h])
        · exact Or.inr ⟨m, by simp [readTarEntries, hs, hm]⟩

theorem readZipEntries_shape (inc : Matcher) :
    ∀ (fs : List ZipFile) (acc : FileMap),
    readZipEntries inc fs acc = (none, true) ∨
      ∃ m, readZipEntries inc fs acc = (some m, false) := by
  intro fs
  induction fs with
  | nil => intro acc; exact Or.inr ⟨acc, rfl⟩
  | cons f rest ih =>
    intro acc
    cases hs : zipStep inc f acc with
    | none => exact Or.inl (by simp [readZipEntries, hs])
    | some acc2 =>
      rcases ih acc2 with h | ⟨m, hm⟩
      · exact Or.inl (by simp [readZipEntries, hs, h])
      · exact Or.inr ⟨m, by simp [readZipEntries, hs, hm]⟩

theorem readTarEntries_filter_dirs (d : Nat) (inc : Matcher) :
    ∀ (items : List TarItem) (acc : FileMap),
    readTarEntries d inc (items.filter tarNotDir) acc = readTarEntries d inc items acc := by
  intro items
  induction items with
  | nil => intro acc; rfl
  | cons it rest ih =>
    intro acc
    cases it with
    | headerErr => simp [List.filter_cons, tarNotDir, readTarEntries, ih]
    | entry e =>
      by_cases hdir : e.header.FileInfo.isDir = true
      · have hstep : tarStep d inc e acc = some acc := by
          unfold tarStep
          rw [if_pos (Or.inr hdir)]
        simp [List.filter_cons, tarNotDir, hdir, readTarEntries, hstep, ih]
      · have hkeep : tarNotDir (TarItem.entry e) = true := by
          simp [tarNotDir]
          simpa using hdir
        cases hs : tarStep d inc e acc with
        | none => simp [List.filter_cons, hkeep, readTarEntries, hs]
        | some acc2 => simp [List.filter_cons, hkeep, readTarEntries, hs, ih]

theorem readZipEntries_filter_dirs (inc : Matcher) :
    ∀ (fs : List ZipFile) (acc : FileMap),
    readZipEntries inc (fs.filter zipNotDir) acc = readZipEntries inc fs acc := by
  intro fs
  induction fs with
  | nil => intro acc; rfl
  | cons f rest ih =>
    intro acc
    by_cases hdir : f.FileInfo.isDir = true
    · have hstep : zipStep inc f acc = some acc := by
        unfold zipStep
        rw [if_neg (by simp [hdir])]
      simp [List.filter_cons, zipNotDir, hdir, readZipEntries, hstep, ih]
    · have hkeep : zipNotDir f = true := by
        simp [zipNotDir]
        simpa using hdir
      cases hs : zipStep inc f acc with
      | none => simp [List.filter_cons, hkeep, readZipEntries, hs]
      | some acc2 => simp [List.filter_cons, hkeep, readZipEntries, hs, ih]

theorem mem_mapInsert (k : List Char) (v : RepositoryFile) (m : FileMap)
    (kv : List Char × RepositoryFile) :
    kv ∈ mapInsert k v m → kv = (k, v) ∨ kv ∈ m := by
  intro h
  unfold mapInsert at h
  rcases List.mem_cons.mp h with h1 | h2
  · exact Or.inl h1
  · exact Or.inr (List.mem_filter.mp h2).1

theorem lookup_mapInsert_self (k : List Char) (v : RepositoryFile) (m : FileMap) :
    List.lookup k (mapInsert k v m) = some v := by
  unfold mapInsert
  simp [List.lookup]

theorem lookup_filter_ne (k k2 : List Char) (h : ¬ k2 = k) :
    ∀ m : FileMap, List.lookup k2 (m.filter (fun kv => kv.1 != k)) = List.lookup k2 m := by
  intro m
  induction m with
  | nil => rfl
  | cons ab ms ih =>
    by_cases hak : ab.1 = k
    · have hdrop : (ab.1 != k) = false := by simp [hak]
      have hne : (k2 == ab.1) = false := by
        rw [hak]
        exact beq_eq_false_iff_ne.mpr h
      simp [List.filter_cons, hdrop, List.lookup, hne, ih]
    · have hkeep : (ab.1 != k) = true := by simp [hak]
      by_cases h2 : k2 = ab.1
      · simp [List.filter_cons, hkeep, List.lookup, h2, ih]
      · have hne : (k2 == ab.1) = false := beq_eq_false_iff_ne.mpr h2
        simp [List.filter_cons, hkeep, List.lookup, hne, ih]

theorem lookup_mapInsert_ne (k k2 : List Char) (v : RepositoryFile) (m : FileMap)
    (h : ¬ k2 = k) :
    List.lookup k2 (mapInsert k v m) = List.lookup k2 m := by
  unfold mapInsert
  have hne : (k2 == k) = false := beq_eq_false_iff_ne.mpr h
  simp [List.lookup, hne]
  rw [lookup_filter_ne k k2 h m]

theorem tarStep_write (d : Nat) (inc : Matcher) (e : TarEntry) (files : FileMap)
    (k : List Char) (b : List Nat)
    (hw : tarWritesKey d inc e k) (hb : e.content = some b) :
    tarStep d inc e files =
      some (mapInsert k (RepositoryFile.mk k e.header.FileInfo b) files) := by
  obtain ⟨h1, h2, h3, h4⟩ := hw
  simp [tarStep, h1, h2, h3, h4, hb]

theorem tarStep_content_err (d : Nat) (inc : Matcher) (e : TarEntry) (files : FileMap)
    (k : List Char) (hw : tarWritesKey d inc e k) (hc : e.content = none) :
    tarStep d inc e files = none := by
  obtain ⟨h1, h2, h3, h4⟩ := hw
  simp [tarStep, h1, h2, h3, h4, hc]

theorem zipStep_write (inc : Matcher) (f : ZipFile) (files : FileMap)
    (k : List Char) (b : List Nat)
    (hw : zipWritesKey inc f k) (hb : f.content = some b) :
    zipStep inc f files = some (mapInsert k (RepositoryFile.mk k f.FileInfo b) files) := by
  obtain ⟨h1, h2, h3⟩ := hw
  subst h3
  simp [zipStep, h1, h2, hb]

theorem zipStep_content_err (inc : Matcher) (f : ZipFile) (files : FileMap)
    (h1 : f.FileInfo.isDir = false) (h2 : inc f.Name = true) (hc : f.content = none) :
    zipStep inc f files = none := by
  simp [zipStep, h1, h2, hc]

theorem tarStep_values_notDir (d : Nat) (inc : Matcher) (e : TarEntry) (acc acc2 : FileMap)
    (hs : tarStep d inc e acc = some acc2)
    (hacc : ∀ kv ∈ acc, kv.2.FileInfo.isDir = false) :
    ∀ kv ∈ acc2, kv.2.FileInfo.isDir = false := by
  intro kv hkv
  unfold tarStep at hs
  by_cases hf : e.header.Format = TarFormat.PAX ∨ e.header.FileInfo.isDir = true
  · rw [if_pos hf] at hs
    injection hs with h2
    exact hacc kv (h2 ▸ hkv)
  · rw [if_neg hf] at hs
    have hdir : e.header.FileInfo.isDir = false := by
      cases h4 : e.header.FileInfo.isDir
      · rfl
      · exact absurd (Or.inr h4) hf
    cases hres : resolveName pathSeparator d e.header.Name with
    | none =>
      simp only [hres] at hs
      injection hs with h2
      exact hacc kv (h2 ▸ hkv)
    | some name =>
      simp only [hres] at hs
      by_cases hin : inc name = true
      · rw [if_pos hin] at hs
        cases hcon : e.content with
        | none => simp only [hcon] at hs; cases hs
        | some b =>
          simp only [hcon] at hs
          injection hs with h2
          rcases mem_mapInsert _ _ _ kv (h2 ▸ hkv) with h3 | h3
          · rw [h3]
            exact hdir
          · exact hacc kv h3
      · rw [if_neg hin] at hs
        injection hs with h2
        exact hacc kv (h2 ▸ hkv)

theorem zipStep_values_notDir (inc : Matcher) (f : ZipFile) (acc acc2 : FileMap)
    (hs : zipStep inc f acc = some acc2)
    (hacc : ∀ kv ∈ acc, kv.2.FileInfo.isDir = false) :
    ∀ kv ∈ acc2, kv.2.FileInfo.isDir = false := by
  intro kv hkv
  unfold zipStep at hs
  by_cases hdir : f.FileInfo.isDir = false
  · rw [if_pos hdir] at hs
    by_cases hin : inc f.Name = true
    · rw [if_pos hin] at hs
      cases hcon : f.content with
      | none => simp only [hcon] at hs; cases hs
      | some b =>
        simp only [hcon] at hs
        injection hs with h2
        rcases mem_mapInsert _ _ _ kv (h2 ▸ hkv) with h3 | h3
        · rw [h3]
          exact hdir
        · exact hacc kv h3
    · rw [if_neg hin] at hs
      injection hs with h2
      exact hacc kv (h2 ▸ hkv)
  · rw [if_neg hdir] at hs
    injection hs with h2
    exact hacc kv (h2 ▸ hkv)

theorem tarStep_lookup_preserve (d : Nat) (inc : Matcher) (e : TarEntry)
    (acc acc2 : FileMap) (k : List Char)
    (hs : tarStep d inc e acc = some acc2) (hn : ¬ tarWritesKey d inc e k) :
    List.lookup k acc2 = List.lookup k acc := by
  unfold tarStep at hs
  by_cases hf : e.header.Format = TarFormat.PAX ∨ e.header.FileInfo.isDir = true
  · rw [if_pos hf] at hs
    injection hs with h2
    rw [← h2]
  · rw [if_neg hf] at hs
    have hpax : ¬ e.header.Format = TarFormat.PAX := fun hx => hf (Or.inl hx)
    have hdir : e.header.FileInfo.isDir = false := by
      cases h4 : e.header.FileInfo.isDir
      · rfl
      · exact absurd (Or.inr h4) hf
    cases hres : resolveName pathSeparator d e.header.Name with
    | none =>
      simp only [hres] at hs
      injection hs with h2
      rw [← h2]
    | some name =>
      simp only [hres] at hs
      by_cases hin : inc name = true
      · rw [if_pos hin] at hs
        cases hcon : e.content with
        | none => simp only [hcon] at hs; cases hs
        | some b =>
          simp only [hcon] at hs
          injection hs with h2
          have hnk : ¬ k = name := by
            intro hkeq
            subst hkeq
            exact hn ⟨hpax, hdir, hres, hin⟩
          rw [← h2, lookup_mapInsert_ne name k _ acc hnk]
      · rw [if_neg hin] at hs
        injection hs with h2
        rw [← h2]

theorem zipStep_lookup_preserve (inc : Matcher) (f : ZipFile)
    (acc acc2 : FileMap) (k : List Char)
    (hs : zipStep inc f acc = some acc2) (hn : ¬ zipWritesKey inc f k) :
    List.lookup k acc2 = List.lookup k acc := by
  unfold zipStep at hs
  by_cases hdir : f.FileInfo.isDir = false
  · rw [if_pos hdir] at hs
    by_cases hin : inc f.Name = true
    · rw [if_pos hin] at hs
      cases hcon : f.content with
      | none => simp only [hcon] at hs; cases hs
      | some b =>
        simp only [hcon] at hs
        injection hs with h2
        have hnk : ¬ k = f.Name := by
          intro hkeq
          exact hn ⟨hdir, hin, hkeq.symm⟩
        rw [← h2, lookup_mapInsert_ne f.Name k _ acc hnk]
    · rw [if_neg hin] at hs
      injection hs with h2
      rw [← h2]
  · rw [if_neg hdir] at hs
    injection hs with h2
    rw [← h2]

theorem readTarEntries_values_notDir (d : Nat) (inc : Matcher) :
    ∀ (items : List TarItem) (acc : FileMap),
    (∀ kv ∈ acc, kv.2.FileInfo.isDir = false) →
    ∀ (m : FileMap), (readTarEntries d inc items acc).1 = some m →
    ∀ kv ∈ m, kv.2.FileInfo.isDir = false := by
  intro items
  induction items with
  | nil =>
    intro acc hacc m hm kv hkv
    have h2 : acc = m := by simpa [readTarEntries] using hm
    exact hacc kv (h2 ▸ hkv)
  | cons it rest ih =>
    intro acc hacc m hm
    cases it with
    | headerErr => simp [readTarEntries] at hm
    | entry e =>
      cases hs : tarStep d inc e acc with
      | none => simp [readTarEntries, hs] at hm
      | some acc2 =>
        simp only [readTarEntries, hs] at hm
        exact ih acc2 (tarStep_values_notDir d inc e acc acc2 hs hacc) m hm

theorem readZipEntries_values_notDir (inc : Matcher) :
    ∀ (fs : List ZipFile) (acc : FileMap),
    (∀ kv ∈ acc, kv.2.FileInfo.isDir = false) →
    ∀ (m : FileMap), (readZipEntries inc fs acc).1 = some m →
    ∀ kv ∈ m, kv.2.FileInfo.isDir = false := by
  intro fs
  induction fs with
  | nil =>
    intro acc hacc m hm kv hkv
    have h2 : acc = m := by simpa [readZipEntries] using hm
    exact hacc kv (h2 ▸ hkv)
  | cons f rest ih =>
    intro acc hacc m hm
    cases hs : zipStep inc f acc with
    | none => simp [readZipEntries, hs] at hm
    | some acc2 =>
      simp only [readZipEntries, hs] at hm
      exact ih acc2 (zipStep_values_notDir inc f acc acc2 hs hacc) m hm

theorem readTarEntries_fails (d : Nat) (inc : Matcher) :
    ∀ (items : List TarItem) (acc : FileMap), tarStreamFails d inc items →
    readTarEntries d inc items acc = (none, true) := by
  intro items
  induction items with
  | nil =>
    intro acc h
    rcases h with h | ⟨e, k, he, _, _⟩
    · cases h
    · cases he
  | cons it rest ih =>
    intro acc h
    cases it with
    | headerErr => rfl
    | entry e =>
      cases hs : tarStep d inc e acc with
      | none => simp [readTarEntries, hs]
      | some acc2 =>
        rcases h with h | ⟨e2, k, he2, hw, hc⟩
        · have hmem : TarItem.headerErr ∈ rest := by
            rcases List.mem_cons.mp h with h1 | h1
            · simp at h1
            · exact h1
          simp [readTarEntries, hs, ih acc2 (Or.inl hmem)]
        · rcases List.mem_cons.mp he2 with h1 | h1
          · injection h1 with h2
            rw [h2] at hw hc
            rw [tarStep_content_err d inc e acc k hw hc] at hs
            cases hs
          · simp [readTarEntries, hs, ih acc2 (Or.inr ⟨e2, k, h1, hw, hc⟩)]

theorem readZipEntries_fails (inc : Matcher) :
    ∀ (fs : List ZipFile) (acc : FileMap), zipStreamFails inc fs →
    readZipEntries inc fs acc = (none, true) := by
  intro fs
  induction fs with
  | nil =>
    intro acc h
    rcases h with ⟨f, hf, _, _, _⟩
    cases hf
  | cons f rest ih =>
    intro acc h
    cases hs : zipStep inc f acc with
    | none => simp [readZipEntries, hs]
    | some acc2 =>
      rcases h with ⟨f2, hf2, h1, h2, h3⟩
      rcases List.mem_cons.mp hf2 with h4 | h4
      · rw [h4] at h1 h2 h3
        rw [zipStep_content_err inc f acc h1 h2 h3] at hs
        cases hs
      · simp [readZipEntries, hs, ih acc2 ⟨f2, h4, h1, h2, h3⟩]

theorem readTarEntries_append_ok (d : Nat) (inc : Matcher) :
    ∀ (xs ys : List TarItem) (acc m : FileMap),
    readTarEntries d inc xs acc = (some m, false) →
    readTarEntries d inc (xs ++ ys) acc = readTarEntries d inc ys m := by
  intro xs
  induction xs with
  | nil =>
    intro ys acc m h
    have h2 : acc = m := by simpa [readTarEntries] using h
    simp [h2]
  | cons it rest ih =>
    intro ys acc m h
    cases it with
    | headerErr => simp [readTarEntries] at h
    | entry e =>
      cases hs : tarStep d inc e acc with
      | none => simp [readTarEntries, hs] at h
      | some acc2 =>
        simp only [readTarEntries, hs] at h
        simp only [List.cons_append, readTarEntries, hs]
        exact ih ys acc2 m h

theorem readZipEntries_append_ok (inc : Matcher) :
    ∀ (xs ys : List ZipFile) (acc m : FileMap),
    readZipEntries inc xs acc = (some m, false) →
    readZipEntries inc (xs ++ ys) acc = readZipEntries inc ys m := by
  intro xs
  induction xs with
  | nil =>
    intro ys acc m h
    have h2 : acc = m := by simpa [readZipEntries] using h
    simp [h2]
  | cons f rest ih =>
    intro ys acc m h
    cases hs : zipStep inc f acc with
    | none => simp [readZipEntries, hs] at h
    | some acc2 =>
      simp only [readZipEntries, hs] at h
      simp only [List.cons_append, readZipEntries, hs]
      exact ih ys acc2 m h

theorem readTarEntries_preserves_key (d : Nat) (inc : Matcher) (k : List Char) :
    ∀ (ys : List TarItem) (acc m : FileMap),
    (∀ e2, TarItem.entry e2 ∈ ys → ¬ tarWritesKey d inc e2 k) →
    readTarEntries d inc ys acc = (some m, false) →
    List.lookup k m = List.lookup k acc := by
  intro ys
  induction ys with
  | nil =>
    intro acc m hno h
    have h2 : acc = m := by simpa [readTarEntries] using h
    rw [← h2]
  | cons it rest ih =>
    intro acc m hno h
    cases it with
    | headerErr => simp [readTarEntries] at h
    | entry e =>
      cases hs : tarStep d inc e acc with
      | none => simp [readTarEntries, hs] at h
      | some acc2 =>
        simp only [readTarEntries, hs] at h
        have hrest := ih acc2 m (fun e2 he2 => hno e2 (List.mem_cons_of_mem _ he2)) h
        rw [hrest]
        exact tarStep_lookup_preserve d inc e acc acc2 k hs
          (hno e (List.mem_cons_self _ _))

theorem readZipEntries_preserves_key (inc : Matcher) (k : List Char) :
    ∀ (ys : List ZipFile) (acc m : FileMap),
    (∀ f2 ∈ ys, ¬ zipWritesKey inc f2 k) →
    readZipEntries inc ys acc = (some m, false) →
    List.lookup k m = List.lookup k acc := by
  intro ys
  induction ys with
  | nil =>
    intro acc m hno h
    have h2 : acc = m := by simpa [readZipEntries] using h
    rw [← h2]
  | cons f rest ih =>
    intro acc m hno h
    cases hs : zipStep inc f acc with
    | none => simp [readZipEntries, hs] at h
    | some acc2 =>
      simp only [readZipEntries, hs] at h
      have hrest := ih acc2 m (fun f2 hf2 => hno f2 (List.mem_cons_of_mem _ hf2)) h
      rw [hrest]
      exact zipStep_lookup_preserve inc f acc acc2 k hs (hno f (List.mem_cons_self _ _))

theorem readTarEntries_append_err (d : Nat) (inc : Matcher) :
    ∀ (xs ys : List TarItem) (acc : FileMap),
    readTarEntries d inc xs acc = (none, true) →
    readTarEntries d inc (xs ++ ys) acc = (none, true) := by
  intro xs
  induction xs with
  | nil => intro ys acc h; simp [readTarEntries] at h
  | cons it rest ih =>
    intro ys acc h
    cases it with
    | headerErr => rfl
    | entry e =>
      cases hs : tarStep d inc e acc with
      | none => simp [readTarEntries, hs]
      | some acc2 =>
        simp only [readTarEntries, hs] at h
        simp only [List.cons_append, readTarEntries, hs]
        exact ih ys acc2 h

theorem readZipEntries_append_err (inc : Matcher) :
    ∀ (xs ys : List ZipFile) (acc : FileMap),
    readZipEntries inc xs acc = (none, true) →
    readZipEntries inc (xs ++ ys) acc = (none, true) := by
  intro xs
  induction xs with
  | nil => intro ys acc h; simp [readZipEntries] at h
  | cons f rest ih =>
    intro ys acc h
    cases hs : zipStep inc f acc with
    | none => simp [readZipEntries, hs]
    | some acc2 =>
      simp only [readZipEntries, hs] at h
      simp only [List.cons_append, readZipEntries, hs]
      exact ih ys acc2 h

theorem readTarEntries_filter_pax (d : Nat) (inc : Matcher) :
    ∀ (items : List TarItem) (acc : FileMap),
    readTarEntries d inc (items.filter tarNotPAXFormat) acc =
      readTarEntries d inc items acc := by
  intro items
  induction items with
  | nil => intro acc; rfl
  | cons it rest ih =>
    intro acc
    cases it with
    | headerErr => simp [List.filter_cons, tarNotPAXFormat, readTarEntries, ih]
    | entry e =>
      by_cases hfmt : e.header.Format = TarFormat.PAX
      · have hstep : tarStep d inc e acc = some acc := by
          unfold tarStep
          rw [if_pos (Or.inl hfmt)]
        have hdrop : tarNotPAXFormat (TarItem.entry e) = false := by
          simp [tarNotPAXFormat, hfmt]
        simp [List.filter_cons, hdrop, readTarEntries, hstep, ih]
      · have hkeep : tarNotPAXFormat (TarItem.entry e) = true := by
          simp [tarNotPAXFormat, hfmt]
        cases hs : tarStep d inc e acc with
        | none => simp [List.filter_cons, hkeep, readTarEntries, hs]
        | some acc2 => simp [List.filter_cons, hkeep, readTarEntries, hs, ih]

theorem readZipEntries_keys_from_entries (inc : Matcher) :
    ∀ (fs : List ZipFile) (acc m : FileMap),
    (readZipEntries inc fs acc).1 = some m →
    ∀ kv ∈ m, kv ∈ acc ∨
      ∃ f ∈ fs, f.Name = kv.1 ∧ f.FileInfo.isDir = false ∧ inc f.Name = true := by
  intro fs
  induction fs with
  | nil =>
    intro acc m hm kv hkv
    have h2 : acc = m := by simpa [readZipEntries] using hm
    exact Or.inl (h2 ▸ hkv)
  | cons f rest ih =>
    intro acc m hm kv hkv
    cases hs : zipStep inc f acc with
    | none => simp [readZipEntries, hs] at hm
    | some acc2 =>
      simp only [readZipEntries, hs] at hm
      rcases ih acc2 m hm kv hkv with h1 | ⟨f2, hf2, he⟩
      · unfold zipStep at hs
        by_cases hdir : f.FileInfo.isDir = false
        · rw [if_pos hdir] at hs
          by_cases hin : inc f.Name = true
          · rw [if_pos hin] at hs
            cases hcon : f.content with
            | none => simp only [hcon] at hs; cases hs
            | some b =>
              simp only [hcon] at hs
              injection hs with h2
              rcases mem_mapInsert _ _ _ kv (h2 ▸ h1) with h3 | h3
              · refine Or.inr ⟨f, List.mem_cons_self _ _, ?_, hdir, hin⟩
                simp [h3]
              · exact Or.inl h3
          · rw [if_neg hin] at hs
            injection hs with h2
            exact Or.inl (h2 ▸ h1)
        · rw [if_neg hdir] at hs
          injection hs with h2
          exact Or.inl (h2 ▸ h1)
      · exact Or.inr ⟨f2, List.mem_cons_of_mem _ hf2, he⟩

theorem readTarResponse_shape (resp : Response) (d : Nat) (inc : Matcher) :
    readTarResponse resp d inc = (none, true) ∨
      ∃ m, readTarResponse resp d inc = (some m, false) := by
  unfold readTarResponse
  by_cases h1 : resp.contentType = "application/gzip" ∨ resp.contentType = "application/x-gzip"
  · rw [if_pos h1]
    cases hgz : resp.gzipTar with
    | none => exact Or.inl rfl
    | some items => exact readTarEntries_shape d inc items []
  · rw [if_neg h1]
    by_cases h2 : resp.contentType = "application/zip"
    · rw [if_pos h2]
      cases hzc : resp.zipCopy with
      | false => exact Or.inl rfl
      | true =>
        cases hze : resp.zipEntries with
        | none => exact Or.inl rfl
        | some fs => exact readZipEntries_shape inc fs []
    · rw [if_neg h2]
      exact readTarEntries_shape d inc resp.rawTar []

/-- Claim C4: every error source aborts the extraction with the nil map: a
failed gzip open, a failed body buffering or zip open under
`application/zip`, a tar stream containing a header-parse error or a
matched entry whose content read fails, and a zip directory containing a
matched entry whose content read fails each produce `(none, true)`; and in
general, whenever the extraction reports an error the returned mapping is
`none` — no partially accumulated mapping is ever returned alongside an
error. -/
theorem readTarResponse_error_returns_nil :
    (∀ (resp : Response) (d : Nat) (inc : Matcher),
      (readTarResponse resp d inc).2 = true → (readTarResponse resp d inc).1 = none)
    ∧ (∀ (resp : Response) (d : Nat) (inc : Matcher), isGzipContentType resp.contentType →
        resp.gzipTar = none → readTarResponse resp d inc = (none, true))
    ∧ (∀ (resp : Response) (d : Nat) (inc : Matcher) (items : List TarItem),
        isGzipContentType resp.contentType → resp.gzipTar = some items →
        tarStreamFails d inc items → readTarResponse resp d inc = (none, true))
    ∧ (∀ (resp : Response) (d : Nat) (inc : Matcher),
        resp.contentType = "application/zip" →
        resp.zipCopy = false ∨ resp.zipEntries = none →
        readTarResponse resp d inc = (none, true))
    ∧ (∀ (resp : Response) (d : Nat) (inc : Matcher) (fs : List ZipFile),
        resp.contentType = "application/zip" → resp.zipCopy = true →
        resp.zipEntries = some fs → zipStreamFails inc fs →
        readTarResponse resp d inc = (none, true))
    ∧ (∀ (resp : Response) (d : Nat) (inc : Matcher),
        ¬ isGzipContentType resp.contentType → resp.contentType ≠ "application/zip" →
        tarStreamFails d inc resp.rawTar → readTarResponse resp d inc = (none, true)) := by
  refine ⟨?_, ?_, ?_, ?_, ?_, ?_⟩
  · intro resp d inc h
    rcases readTarResponse_shape resp d inc with h2 | ⟨m, h2⟩
    · rw [h2]
    · rw [h2] at h
      simp at h
  · intro resp d inc hct hgz
    unfold isGzipContentType at hct
    unfold readTarResponse
    rw [if_pos hct, hgz]
  · intro resp d inc items hct hgz hfail
    unfold isGzipContentType at hct
    unfold readTarResponse
    rw [if_pos hct]
    simp only [hgz]
    exact readTarEntries_fails d inc items [] hfail
  · intro resp d inc hct hdisj
    unfold readTarResponse
    rw [hct]
    rw [if_neg (show ¬("application/zip" = "application/gzip" ∨
      "application/zip" = "application/x-gzip") from by decide)]
    rw [if_pos rfl]
    rcases hdisj with hc | he
    · simp [hc]
    · cases hzc : resp.zipCopy with
      | false => simp [hzc]
      | true => simp [hzc, he]
  · intro resp d inc fs hct hzc hze hfail
    unfold readTarResponse
    rw [hct]
    rw [if_neg (show ¬("application/zip" = "application/gzip" ∨
      "application/zip" = "application/x-gzip") from by decide)]
    rw [if_pos rfl]
    simp only [hzc, hze, if_true]
    exact readZipEntries_fails inc fs [] hfail
  · intro resp d inc h1 h2 hfail
    unfold isGzipContentType at h1
    unfold readTarResponse
    rw [if_neg h1, if_neg h2]
    exact readTarEntries_fails d inc resp.rawTar [] hfail

/-- Witness for C4: a response declared `application/gzip` whose gzip header
is invalid yields the nil map and an error. -/
theorem readTarResponse_error_returns_nil_witness :
    readTarResponse (Response.mk "application/gzip" none true none []) 3 MatchAll =
      (none, true) :=
  readTarResponse_error_returns_nil.2.1 (Response.mk "application/gzip" none true none [])
    3 MatchAll (Or.inl rfl) rfl

/-- Claim C5: entries classified as directories never appear in the result
mapping: removing every directory entry from the response leaves the result
of `readTarResponse` unchanged, and every file stored in a successfully
returned mapping carries a non-directory `FileInfo`. -/
theorem readTarResponse_excludes_directories :
    (∀ (resp : Response) (d : Nat) (inc : Matcher),
      readTarResponse (Response.filterDirs resp) d inc = readTarResponse resp d inc)
    ∧ (∀ (resp : Response) (d : Nat) (inc : Matcher) (m : FileMap)
        (kv : List Char × RepositoryFile),
        (readTarResponse resp d inc).1 = some m → kv ∈ m →
        kv.2.FileInfo.isDir = false) := by
  constructor
  · intro resp d inc
    obtain ⟨ct, gz, zc, ze, rt⟩ := resp
    unfold Response.filterDirs readTarResponse
    dsimp only
    by_cases h1 : ct = "application/gzip" ∨ ct = "application/x-gzip"
    · rw [if_pos h1, if_pos h1]
      cases gz with
      | none => rfl
      | some items => exact readTarEntries_filter_dirs d inc items []
    · rw [if_neg h1, if_neg h1]
      by_cases h2 : ct = "application/zip"
      · rw [if_pos h2, if_pos h2]
        cases zc with
        | false => rfl
        | true =>
          cases ze with
          | none => rfl
          | some fs => exact readZipEntries_filter_dirs inc fs []
      · rw [if_neg h2, if_neg h2]
        exact readTarEntries_filter_dirs d inc rt []
  · intro resp d inc m kv hm hkv
    unfold readTarResponse at hm
    by_cases h1 : resp.contentType = "application/gzip" ∨ resp.contentType = "application/x-gzip"
    · rw [if_pos h1] at hm
      cases hgz : resp.gzipTar with
      | none => rw [hgz] at hm; simp at hm
      | some items =>
        rw [hgz] at hm
        exact readTarEntries_values_notDir d inc items []
          (by intro kv2 h; cases h) m hm kv hkv
    · rw [if_neg h1] at hm
      by_cases h2 : resp.contentType = "application/zip"
      · rw [if_pos h2] at hm
        cases hzc : resp.zipCopy with
        | false => rw [hzc] at hm; simp at hm
        | true =>
          rw [hzc] at hm
          simp only [if_true] at hm
          cases hze : resp.zipEntries with
          | none => rw [hze] at hm; simp at hm
          | some fs =>
            rw [hze] at hm
            exact readZipEntries_values_notDir inc fs []
              (by intro kv2 h; cases h) m hm kv hkv
      · rw [if_neg h2] at hm
        exact readTarEntries_values_notDir d inc resp.rawTar []
          (by intro kv2 h; cases h) m hm kv hkv

/-- Witness for C5: the single regular file of a raw tar response appears in
the mapping with a non-directory `FileInfo`. -/
theorem readTarResponse_excludes_directories_witness :
    (("f".toList, RepositoryFile.mk "f".toList (FileInfo.mk false) [7]) :
      List Char × RepositoryFile).2.FileInfo.isDir = false :=
  readTarResponse_excludes_directories.2
    (Response.mk "" none true none
      [TarItem.entry (TarEntry.mk
        (TarHeader.mk "f".toList TarFormat.USTAR (FileInfo.mk false) '0') (some [7]))])
    0 MatchAll
    [("f".toList, RepositoryFile.mk "f".toList (FileInfo.mk false) [7])]
    ("f".toList, RepositoryFile.mk "f".toList (FileInfo.mk false) [7])
    (by decide) (by decide)

/-- Claim C6: with declared content type `application/zip` the strip depth is
not applied: the result is identical for every strip depth, and every key of
a successfully returned mapping is the stored name of some non-directory
entry of the zip central directory, used as-is. -/
theorem readTarResponse_zip_ignores_stripFolder :
    (∀ (resp : Response) (d d2 : Nat) (inc : Matcher),
      resp.contentType = "application/zip" →
      readTarResponse resp d inc = readTarResponse resp d2 inc)
    ∧ (∀ (resp : Response) (d : Nat) (inc : Matcher) (m : FileMap)
        (kv : List Char × RepositoryFile),
        resp.contentType = "application/zip" →
        (readTarResponse resp d inc).1 = some m → kv ∈ m →
        ∃ fs, resp.zipEntries = some fs ∧
          ∃ f ∈ fs, f.Name = kv.1 ∧ f.FileInfo.isDir = false ∧ inc f.Name = true) := by
  have hng : ¬("application/zip" = "application/gzip" ∨
      "application/zip" = "application/x-gzip") := by decide
  constructor
  · intro resp d d2 inc hct
    unfold readTarResponse
    rw [hct]
    rw [if_neg hng, if_neg hng, if_pos rfl, if_pos rfl]
  · intro resp d inc m kv hct hm hkv
    unfold readTarResponse at hm
    rw [hct] at hm
    rw [if_neg hng, if_pos rfl] at hm
    cases hzc : resp.zipCopy with
    | false => rw [hzc] at hm; simp at hm
    | true =>
      rw [hzc] at hm
      simp only [if_true] at hm
      cases hze : resp.zipEntries with
      | none => rw [hze] at hm; simp at hm
      | some fs =>
        rw [hze] at hm
        refine ⟨fs, rfl, ?_⟩
        rcases readZipEntries_keys_from_entries inc fs [] m hm kv hkv with h | h
        · cases h
        · exact h

/-- Witness for C6: a zip response extracted at strip depths 5 and 0 yields
the same mapping. -/
theorem readTarResponse_zip_ignores_stripFolder_witness :
    readTarResponse (Response.mk "application/zip" none true
        (some [ZipFile.mk "a/b".toList (FileInfo.mk false) (some [5])]) []) 5 MatchAll =
      readTarResponse (Response.mk "application/zip" none true
        (some [ZipFile.mk "a/b".toList (FileInfo.mk false) (some [5])]) []) 0 MatchAll :=
  readTarResponse_zip_ignores_stripFolder.1
    (Response.mk "application/zip" none true
      (some [ZipFile.mk "a/b".toList (FileInfo.mk false) (some [5])]) [])
    5 0 MatchAll rfl

/-- Claim C7: last-write-wins in both extraction loops: when entry `e` (or
zip entry `f`) writes key `k`, no later entry writes `k`, and the loop
completes successfully, the final mapping holds that entry's content under
`k`. -/
theorem extraction_last_write_wins :
    (∀ (d : Nat) (inc : Matcher) (xs ys : List TarItem) (e : TarEntry)
        (acc m : FileMap) (k : List Char) (b : List Nat),
      tarWritesKey d inc e k → e.content = some b →
      (∀ e2, TarItem.entry e2 ∈ ys → ¬ tarWritesKey d inc e2 k) →
      readTarEntries d inc (xs ++ TarItem.entry e :: ys) acc = (some m, false) →
      List.lookup k m = some (RepositoryFile.mk k e.header.FileInfo b))
    ∧ (∀ (inc : Matcher) (xs ys : List ZipFile) (f : ZipFile)
        (acc m : FileMap) (k : List Char) (b : List Nat),
      zipWritesKey inc f k → f.content = some b →
      (∀ f2 ∈ ys, ¬ zipWritesKey inc f2 k) →
      readZipEntries inc (xs ++ f :: ys) acc = (some m, false) →
      List.lookup k m = some (RepositoryFile.mk k f.FileInfo b)) := by
  constructor
  · intro d inc xs ys e acc m k b hw hb hno h
    rcases readTarEntries_shape d inc xs acc with h1 | ⟨m1, hm1⟩
    · rw [readTarEntries_append_err d inc xs _ acc h1] at h
      simp at h
    · rw [readTarEntries_append_ok d inc xs _ acc m1 hm1] at h
      have hstep := tarStep_write d inc e m1 k b hw hb
      simp only [readTarEntries, hstep] at h
      have hpres := readTarEntries_preserves_key d inc k ys _ m hno h
      rw [hpres, lookup_mapInsert_self]
  · intro inc xs ys f acc m k b hw hb hno h
    rcases readZipEntries_shape inc xs acc with h1 | ⟨m1, hm1⟩
    · rw [readZipEntries_append_err inc xs _ acc h1] at h
      simp at h
    · rw [readZipEntries_append_ok inc xs _ acc m1 hm1] at h
      have hstep := zipStep_write inc f m1 k b hw hb
      simp only [readZipEntries, hstep] at h
      have hpres := readZipEntries_preserves_key inc k ys _ m hno h
      rw [hpres, lookup_mapInsert_self]

/-- Witness for C7: two tar entries stored under the same name `k` with
contents `[1]` then `[2]`; the final mapping holds `[2]`. -/
theorem extraction_last_write_wins_witness :
    List.lookup "k".toList
      [("k".toList, RepositoryFile.mk "k".toList (FileInfo.mk false) [2])] =
      some (RepositoryFile.mk "k".toList (FileInfo.mk false) [2]) :=
  extraction_last_write_wins.1 0 MatchAll
    [TarItem.entry (TarEntry.mk
      (TarHeader.mk "k".toList TarFormat.USTAR (FileInfo.mk false) '0') (some [1]))]
    []
    (TarEntry.mk (TarHeader.mk "k".toList TarFormat.USTAR (FileInfo.mk false) '0') (some [2]))
    []
    [("k".toList, RepositoryFile.mk "k".toList (FileInfo.mk false) [2])]
    "k".toList [2]
    (by refine ⟨by decide, rfl, by decide, rfl⟩)
    rfl
    (by intro e2 h; cases h)
    (by decide)

/-- Claim C9 counterexample: a regular file entry — neither a metadata-only
record nor a directory — whose header format is PAX is skipped: extracted
with `MatchAll`, strip depth 0 and readable content, the result is empty,
whereas the claim says every non-metadata non-directory entry proceeds to
path resolution and matching. -/
theorem readTarEntries_pax_format_file_counterexample :
    readTarEntries 0 MatchAll
      [TarItem.entry (TarEntry.mk
        (TarHeader.mk "f".toList TarFormat.PAX (FileInfo.mk false) '0') (some [1]))] [] =
      (some [], false) ∧
    (TarHeader.mk "f".toList TarFormat.PAX (FileInfo.mk false) '0').metadataOnly = false ∧
    (TarHeader.mk "f".toList TarFormat.PAX (FileInfo.mk false) '0').FileInfo.isDir = false := by
  refine ⟨by decide, by decide, by decide⟩

/-- Claim C9 (amended): the tar loop skips exactly the entries whose header
format marker is PAX (besides directories): removing all PAX-format entries
leaves the result unchanged; every metadata-only record is skipped, since
Go's reader surfaces those with PAX format; and every non-directory entry
whose format is not PAX proceeds to path resolution and matching, a
successful match storing its content.  Regular files whose headers were
parsed in PAX format are therefore also skipped, not only metadata-only
records. -/
theorem readTarEntries_pax_format_skip :
    (∀ (d : Nat) (inc : Matcher) (items : List TarItem) (acc : FileMap),
      readTarEntries d inc (items.filter tarNotPAXFormat) acc =
        readTarEntries d inc items acc)
    ∧ (∀ (d : Nat) (inc : Matcher) (e : TarEntry) (rest : List TarItem) (acc : FileMap),
        e.header.metadataOnly = true → e.header.Format = TarFormat.PAX →
        readTarEntries d inc (TarItem.entry e :: rest) acc =
          readTarEntries d inc rest acc)
    ∧ (∀ (d : Nat) (inc : Matcher) (e : TarEntry) (rest : List TarItem) (acc : FileMap)
        (k : List Char) (b : List Nat),
        tarWritesKey d inc e k → e.content = some b →
        readTarEntries d inc (TarItem.entry e :: rest) acc =
          readTarEntries d inc rest
            (mapInsert k (RepositoryFile.mk k e.header.FileInfo b) acc)) := by
  refine ⟨readTarEntries_filter_pax, ?_, ?_⟩
  · intro d inc e rest acc _ hfmt
    have hstep : tarStep d inc e acc = some acc := by
      unfold tarStep
      rw [if_pos (Or.inl hfmt)]
    simp [readTarEntries, hstep]
  · intro d inc e rest acc k b hw hb
    have hstep := tarStep_write d inc e acc k b hw hb
    simp [readTarEntries, hstep]

/-- Witness for amended C9: the `pax_global_header` record of a repository
tarball is skipped, while a regular USTAR file entry is stored. -/
theorem readTarEntries_pax_format_skip_witness :
    readTarEntries 0 MatchAll
      [TarItem.entry (TarEntry.mk
        (TarHeader.mk "pax_global_header".toList TarFormat.PAX (FileInfo.mk false) 'g')
        (some []))] [] =
      readTarEntries 0 MatchAll [] [] ∧
    readTarEntries 0 MatchAll
      [TarItem.entry (TarEntry.mk
        (TarHeader.mk "f".toList TarFormat.USTAR (FileInfo.mk false) '0') (some [7]))] [] =
      readTarEntries 0 MatchAll []
        (mapInsert "f".toList
          (RepositoryFile.mk "f".toList (FileInfo.mk false) [7]) []) :=
  ⟨readTarEntries_pax_format_skip.2.1 0 MatchAll
    (TarEntry.mk (TarHeader.mk "pax_global_header".toList TarFormat.PAX (FileInfo.mk false) 'g')
      (some [])) [] [] (by decide) rfl,
   readTarEntries_pax_format_skip.2.2 0 MatchAll
    (TarEntry.mk (TarHeader.mk "f".toList TarFormat.USTAR (FileInfo.mk false) '0') (some [7]))
    [] [] "f".toList [7] (by refine ⟨by decide, rfl, by decide, rfl⟩) rfl⟩

/-! ## `RunID` / `RunNumber` theorems -/

theorem decimalValueFrom_le : ∀ (cs : List Char) (n : Nat), n ≤ decimalValueFrom n cs := by
  intro cs
  induction cs with
  | nil => intro n; exact Nat.le_refl n
  | cons c cs ih =>
    intro n
    calc n ≤ n * 10 + (c.toNat - '0'.toNat) := by omega
      _ ≤ decimalValueFrom (n * 10 + (c.toNat - '0'.toNat)) cs := ih _

theorem decimalValueFrom_cons (n : Nat) (c : Char) (cs : List Char) :
    decimalValueFrom n (c :: cs) = decimalValueFrom (n * 10 + (c.toNat - '0'.toNat)) cs := rfl

theorem parseUintLoop_eval : ∀ (cs : List Char) (n : Nat),
    cs.all Char.isDigit = true → n ≤ maxUint64 →
    parseUintLoop cs n =
      if decimalValueFrom n cs ≤ maxUint64 then some (decimalValueFrom n cs) else none := by
  intro cs
  induction cs with
  | nil =>
    intro n _ hn
    rw [show decimalValueFrom n [] = n from rfl, if_pos hn]
    rfl
  | cons c cs ih =>
    intro n hdig hn
    have hdigc : c.isDigit = true := by
      rw [List.all_cons, Bool.and_eq_true] at hdig
      exact hdig.1
    have hdigcs : cs.all Char.isDigit = true := by
      rw [List.all_cons, Bool.and_eq_true] at hdig
      exact hdig.2
    by_cases hcut : uintCutoff ≤ n
    · have h1 : parseUintLoop (c :: cs) n = none := by
        simp [parseUintLoop, hdigc, hcut]
      have h2 : maxUint64 < decimalValueFrom n (c :: cs) := by
        rw [decimalValueFrom_cons]
        have hmono := decimalValueFrom_le cs (n * 10 + (c.toNat - '0'.toNat))
        have hmul : uintCutoff * 10 ≤ n * 10 := Nat.mul_le_mul_right 10 hcut
        have hc10 : maxUint64 < uintCutoff * 10 := by
          have hmax : maxUint64 = 18446744073709551615 := by norm_num [maxUint64]
          have hcutv : uintCutoff = 1844674407370955162 := by
            norm_num [uintCutoff, maxUint64]
          rw [hmax, hcutv]
          norm_num
        omega
      rw [h1, if_neg (by omega)]
    · by_cases hov : maxUint64 < n * 10 + (c.toNat - '0'.toNat)
      · have hov48 : maxUint64 < n * 10 + (c.toNat - 48) := hov
        have h1 : parseUintLoop (c :: cs) n = none := by
          simp [parseUintLoop, hdigc, hcut, hov48]
        have h2 : maxUint64 < decimalValueFrom n (c :: cs) := by
          rw [decimalValueFrom_cons]
          exact Nat.lt_of_lt_of_le hov (decimalValueFrom_le cs _)
        rw [h1, if_neg (by omega)]
      · have hov48 : ¬ maxUint64 < n * 10 + (c.toNat - 48) := hov
        have hle : n * 10 + (c.toNat - '0'.toNat) ≤ maxUint64 := Nat.le_of_not_lt hov
        have h1 : parseUintLoop (c :: cs) n =
            parseUintLoop cs (n * 10 + (c.toNat - '0'.toNat)) := by
          simp [parseUintLoop, hdigc, hcut, hov48]
        rw [h1, ih (n * 10 + (c.toNat - '0'.toNat)) hdigcs hle]
        rfl

theorem parseUintLoop_not_digits : ∀ (cs : List Char) (n : Nat),
    cs.all Char.isDigit = false → parseUintLoop cs n = none := by
  intro cs
  induction cs with
  | nil => intro n h; simp at h
  | cons c cs ih =>
    intro n h
    by_cases hc : c.isDigit = true
    · have hcs : cs.all Char.isDigit = false := by
        simp [List.all_cons, hc] at h
        simpa using h
      by_cases h1 : uintCutoff ≤ n
      · simp [parseUintLoop, hc, h1]
      · by_cases h2 : maxUint64 < n * 10 + (c.toNat - '0'.toNat)
        · have h248 : maxUint64 < n * 10 + (c.toNat - 48) := h2
          simp [parseUintLoop, hc, h1, h248]
        · have h248 : ¬ maxUint64 < n * 10 + (c.toNat - 48) := h2
          have hstep : parseUintLoop (c :: cs) n =
              parseUintLoop cs (n * 10 + (c.toNat - '0'.toNat)) := by
            simp [parseUintLoop, hc, h1, h248]
          rw [hstep]
          exact ih _ hcs
    · simp [parseUintLoop, hc]

theorem ParseUint_eval (s : String) :
    ParseUint s =
      if s.toList ≠ [] ∧ s.toList.all Char.isDigit = true ∧
          decimalValue s.toList ≤ maxUint64
      then some (decimalValue s.toList) else none := by
  unfold ParseUint
  by_cases h0 : s.toList = []
  · rw [if_pos h0, if_neg (fun h => h.1 h0)]
  · rw [if_neg h0]
    by_cases hdig : s.toList.all Char.isDigit = true
    · rw [parseUintLoop_eval s.toList 0 hdig (Nat.zero_le _)]
      unfold decimalValue
      by_cases hle : decimalValueFrom 0 s.toList ≤ maxUint64
      · rw [if_pos hle, if_pos ⟨h0, hdig, hle⟩]
      · rw [if_neg hle, if_neg (fun h => hle h.2.2)]
    · have hfalse : s.toList.all Char.isDigit = false := by
        cases h2 : s.toList.all Char.isDigit
        · rfl
        · exact absurd h2 hdig
      rw [parseUintLoop_not_digits s.toList 0 hfalse,
        if_neg (fun h => hdig h.2.1)]

/-- Claim C10: `RunID` and `RunNumber` read `GITHUB_RUN_ID` and
`GITHUB_RUN_NUMBER`; they return the parsed value when the variable holds a
nonempty string of decimal digits whose value fits in an unsigned 64-bit
integer, and 0 in every other case — unset (indistinguishable from empty for
`os.Getenv`), empty, containing a non-digit (including a sign), or out of
range.  The `Nat` return type carries no error: the parse failure is
silent. -/
theorem runID_runNumber_parse_semantics (env : Env) :
    RunID env = specEnvNumber (env "GITHUB_RUN_ID").toList ∧
    RunNumber env = specEnvNumber (env "GITHUB_RUN_NUMBER").toList := by
  constructor
  · unfold RunID githubEnvNumber githubEnv
    rw [show ("GITHUB_" ++ "RUN_ID" : String) = "GITHUB_RUN_ID" from rfl]
    rw [ParseUint_eval]
    unfold specEnvNumber
    by_cases h : (env "GITHUB_RUN_ID").toList ≠ [] ∧
        (env "GITHUB_RUN_ID").toList.all Char.isDigit = true ∧
        decimalValue (env "GITHUB_RUN_ID").toList ≤ maxUint64
    · rw [if_pos h, if_pos h]
    · rw [if_neg h, if_neg h]
  · unfold RunNumber githubEnvNumber githubEnv
    rw [show ("GITHUB_" ++ "RUN_NUMBER" : String) = "GITHUB_RUN_NUMBER" from rfl]
    rw [ParseUint_eval]
    unfold specEnvNumber
    by_cases h : (env "GITHUB_RUN_NUMBER").toList ≠ [] ∧
        (env "GITHUB_RUN_NUMBER").toList.all Char.isDigit = true ∧
        decimalValue (env "GITHUB_RUN_NUMBER").toList ≤ maxUint64
    · rw [if_pos h, if_pos h]
    · rw [if_neg h, if_neg h]
